import Mathlib

/-
Verification of the NOS kernel heap allocator (kmalloc / kfree).

The visible source gives the top-level composition:

  void *kmalloc(size_t n) {
      static void *ptr;
      if(!kmalloc_get_head())
          kmalloc_init(n);
      ptr = kmalloc_next_block(n);
      kmalloc_merge_free_blocks();
      return ptr;
  }

  void kfree(void *ptr) {
      if(!ptr)
          return;
      kmalloc_free(ptr);
  }

The heap is a single contiguous region subdivided into an address-ordered
chain of blocks, each with a header (size, free flag) followed by its
payload.  We embed the chain as a list of blocks; block addresses are
derived from the region base and the spans of the preceding blocks, which
makes the chain contiguous and non-overlapping by construction, so the
substantive part of the coverage invariant is that the spans sum to the
region size.
-/

/-- Modelled from the spec: the spec speaks of "one header's worth of bytes"
without fixing a numeric value (the header layout itself is not in the
visible source); 16 bytes stands for one header. -/
def headerSize : Nat := 16

/-- Modelled from the spec: the "minimum useful payload" below which a free
remainder is not split off; the spec fixes no numeric value. -/
def minPayload : Nat := 4

/-- A heap block header: payload size in bytes and a free/in-use flag
(`true` means free). The link to the next block is positional in the
embedding: the successor in the list is the block at the next address. -/
structure Block where
  size : Nat
  free : Bool
  deriving Repr, DecidableEq

/-- The allocator state: the externally supplied region descriptor
(base address and total size, from the boot/memory-map collaborator) and
the block chain in address order.  An empty chain means the region has not
been initialized yet (no head block exists). -/
structure HeapState where
  regionBase : Nat
  regionSize : Nat
  blocks : List Block
  deriving Repr, DecidableEq

/-- The number of region bytes a block occupies: its header plus payload. -/
def blockSpan (b : Block) : Nat := headerSize + b.size

/-- Whether a block can serve a request of n bytes: it is free and its
payload is at least n. -/
def fits (n : Nat) (b : Block) : Bool := b.free && decide (n ≤ b.size)

/-- Total number of region bytes covered by a chain segment. -/
def totalSpan : List Block → Nat
  | [] => 0
  | b :: rest => blockSpan b + totalSpan rest

/-- Total span (header plus payload) of the free blocks of a chain. -/
def freeSpan : List Block → Nat
  | [] => 0
  | b :: rest => (if b.free then blockSpan b else 0) + freeSpan rest

/-- Total payload bytes available in the free blocks of a chain. -/
def freeCapacity : List Block → Nat
  | [] => 0
  | b :: rest => (if b.free then b.size else 0) + freeCapacity rest

/-- No two address-adjacent blocks of the chain are both free. -/
def noAdjFree : List Block → Bool
  | [] => true
  | [_] => true
  | a :: b :: rest => !(a.free && b.free) && noAdjFree (b :: rest)

/-- Modelled from the spec: what replaces a selected free block.  If its
payload exceeds the request by more than one header plus the minimum
useful payload, shrink it to exactly n bytes, mark it in-use, and place a
new free block over the remainder; otherwise hand the whole block over
unshrunk. -/
def splitBlock (n : Nat) (b : Block) : List Block :=
  if n + headerSize + minPayload < b.size then
    [⟨n, false⟩, ⟨b.size - n - headerSize, true⟩]
  else
    [⟨b.size, false⟩]

/-- Modelled from the spec: the first-fit search of kmalloc_next_block,
whose body is not in the visible source.  Walk the chain from the head at
address a; the first free block whose payload is at least n is selected
and split; the payload address (header address plus header size) is
returned.  Returns none when no block fits. -/
def allocBlocks (n a : Nat) : List Block → Option (Nat × List Block)
  | [] => none
  | b :: rest =>
    if fits n b then
      some (a + headerSize, splitBlock n b ++ rest)
    else
      (allocBlocks n (a + blockSpan b) rest).map fun r => (r.1, b :: r.2)

/-- Modelled from the spec: the coalescing pass of
kmalloc_merge_free_blocks, whose body is not in the visible source.
Merges every run of address-adjacent free blocks into one free block whose
payload absorbs the disappearing headers; the result has no adjacent free
pair, i.e. the pass reaches the fixed point the spec demands. -/
def mergeFreeBlocks : List Block → List Block
  | [] => []
  | b :: rest =>
    match mergeFreeBlocks rest with
    | [] => [b]
    | c :: t =>
      if b.free && c.free then
        ⟨b.size + headerSize + c.size, true⟩ :: t
      else
        b :: c :: t

/-- Modelled from the spec: kmalloc_free, whose body is not in the visible
source.  The owner of pointer p is the block whose payload starts at p
(the C code finds its header at a fixed offset before p); only its flag is
flipped to free. -/
def freeBlocks (p a : Nat) : List Block → List Block
  | [] => []
  | b :: rest =>
    if a + headerSize = p then
      { b with free := true } :: rest
    else
      b :: freeBlocks p (a + blockSpan b) rest

/-- Modelled from the spec: kmalloc_get_head, whose body is not in the
visible source; returns the head block of the chain if one exists. -/
def kmalloc_get_head (s : HeapState) : Option Block := s.blocks.head?

set_option linter.unusedVariables false in
/-- Modelled from the spec: kmalloc_init, whose body is not in the visible
source.  Idempotent: a no-op when a head block already exists.  Otherwise
it establishes one free block spanning the externally supplied region —
the request parameter n plays no part in sizing — provided the region
exceeds one header's worth of overhead; if not, initialization fails and
the chain stays empty. -/
def kmalloc_init (n : Nat) (s : HeapState) : HeapState :=
  if s.blocks = [] then
    if headerSize < s.regionSize then
      { s with blocks := [⟨s.regionSize - headerSize, true⟩] }
    else s
  else s

/-- Modelled from the spec: kmalloc_next_block as a state transformer,
returning the payload pointer (or none for OutOfMemory) and the updated
chain. -/
def kmalloc_next_block (n : Nat) (s : HeapState) : Option Nat × HeapState :=
  match allocBlocks n s.regionBase s.blocks with
  | none => (none, s)
  | some r => (some r.1, { s with blocks := r.2 })

/-- Modelled from the spec: kmalloc_merge_free_blocks on the state. -/
def kmalloc_merge_free_blocks (s : HeapState) : HeapState :=
  { s with blocks := mergeFreeBlocks s.blocks }

/-- Modelled from the spec: kmalloc_free on the state. -/
def kmalloc_free (p : Nat) (s : HeapState) : HeapState :=
  { s with blocks := freeBlocks p s.regionBase s.blocks }

/-- The visible body of kmalloc: initialize lazily when no head block
exists, search (passing n through unchanged in both calls), then run the
coalescing pass unconditionally, and return the search's pointer. -/
def kmalloc (n : Nat) (s : HeapState) : Option Nat × HeapState :=
  ((kmalloc_next_block n (if kmalloc_get_head s = none then kmalloc_init n s else s)).1,
   kmalloc_merge_free_blocks
     (kmalloc_next_block n (if kmalloc_get_head s = none then kmalloc_init n s else s)).2)

/-- The visible body of kfree: a null pointer (modelled as none) returns at
once; otherwise delegate to kmalloc_free. -/
def kfree (p : Option Nat) (s : HeapState) : HeapState :=
  match p with
  | none => s
  | some q => kmalloc_free q s

/-- One external call to the allocator. -/
inductive Op where
  | alloc (n : Nat)
  | rel (p : Option Nat)
  deriving Repr, DecidableEq

/-- Apply one call to the state (the pointer returned by alloc is dropped;
rel carries the pointer to release). -/
def stepOp (s : HeapState) : Op → HeapState
  | .alloc n => (kmalloc n s).2
  | .rel p => kfree p s

/-- Run a sequence of allocator calls from a state. -/
def run (ops : List Op) (s : HeapState) : HeapState := ops.foldl stepOp s

/-- Header address of the i-th block of the chain: the region base plus the
spans of the blocks before it.  Chain contiguity is thus definitional; the
coverage theorem shows the spans also exhaust the region. -/
def blockAddr (s : HeapState) (i : Nat) : Nat :=
  s.regionBase + totalSpan (s.blocks.take i)

/-- Coverage: an uninitialized chain, or one whose spans sum to exactly the
region size. -/
def covered (s : HeapState) : Prop :=
  s.blocks = [] ∨ totalSpan s.blocks = s.regionSize

theorem blockSpan_pos (b : Block) : 0 < blockSpan b := by
  simp [blockSpan, headerSize]

theorem totalSpan_append (l₁ l₂ : List Block) :
    totalSpan (l₁ ++ l₂) = totalSpan l₁ + totalSpan l₂ := by
  induction l₁ with
  | nil => simp [totalSpan]
  | cons b l ih => simp [totalSpan, ih]; omega

theorem freeSpan_append (l₁ l₂ : List Block) :
    freeSpan (l₁ ++ l₂) = freeSpan l₁ + freeSpan l₂ := by
  induction l₁ with
  | nil => simp [freeSpan]
  | cons b l ih => simp [freeSpan, ih]; omega

theorem totalSpan_pos (b : Block) (l : List Block) : 0 < totalSpan (b :: l) := by
  have := blockSpan_pos b
  simp [totalSpan]; omega

theorem allocBlocks_append (n a : Nat) (A t : List Block) (m : Block)
    (hA : ∀ b ∈ A, fits n b = false) (hm : fits n m = true) :
    allocBlocks n a (A ++ m :: t) =
      some (a + totalSpan A + headerSize, A ++ splitBlock n m ++ t) := by
  induction A generalizing a with
  | nil => simp [allocBlocks, hm, totalSpan]
  | cons b A ih =>
    have hb : fits n b = false := hA b (by simp)
    have hA' : ∀ x ∈ A, fits n x = false := fun x hx => hA x (by simp [hx])
    have hstep : allocBlocks n a ((b :: A) ++ m :: t)
        = (allocBlocks n (a + blockSpan b) (A ++ m :: t)).map fun r => (r.1, b :: r.2) := by
      simp [allocBlocks, hb]
    rw [hstep, ih (a + blockSpan b) hA']
    simp only [Option.map_some', Option.some.injEq, Prod.mk.injEq, List.cons_append, totalSpan]
    exact ⟨by omega, trivial⟩

theorem allocBlocks_eq_none_iff (n a : Nat) (l : List Block) :
    allocBlocks n a l = none ↔ ∀ b ∈ l, fits n b = false := by
  induction l generalizing a with
  | nil => simp [allocBlocks]
  | cons b rest ih =>
    by_cases hb : fits n b = true
    · simp [allocBlocks, hb]
    · simp only [Bool.not_eq_true] at hb
      simp [allocBlocks, hb, ih]

theorem allocBlocks_eq_some (n a p : Nat) (l l' : List Block)
    (h : allocBlocks n a l = some (p, l')) :
    ∃ A m t, l = A ++ m :: t ∧ (∀ b ∈ A, fits n b = false) ∧ fits n m = true ∧
      p = a + totalSpan A + headerSize ∧ l' = A ++ splitBlock n m ++ t := by
  induction l generalizing a p l' with
  | nil => simp [allocBlocks] at h
  | cons b rest ih =>
    by_cases hb : fits n b = true
    · refine ⟨[], b, rest, by simp, by simp, hb, ?_, ?_⟩
      · simp [allocBlocks, hb] at h
        simp [totalSpan, ← h.1]
      · simp [allocBlocks, hb] at h
        simp [← h.2]
    · simp only [Bool.not_eq_true] at hb
      simp only [allocBlocks, hb, Bool.false_eq_true, if_false, Option.map_eq_some'] at h
      obtain ⟨⟨p', l''⟩, hr, heq⟩ := h
      obtain ⟨A, m, t, hl, hA, hm, hp, hl'⟩ := ih (a + blockSpan b) p' l'' hr
      refine ⟨b :: A, m, t, by simp [hl], ?_, hm, ?_, ?_⟩
      · intro x hx
        rcases List.mem_cons.mp hx with hx | hx
        · simpa [hx] using hb
        · exact hA x hx
      · have : p = p' := by simpa using congrArg Prod.fst heq.symm
        simp [this, hp, totalSpan]; omega
      · have : l' = b :: l'' := by simpa using congrArg Prod.snd heq.symm
        simp [this, hl']

theorem allocBlocks_isSome (n a : Nat) (l : List Block) (b : Block)
    (hb : b ∈ l) (hf : fits n b = true) : (allocBlocks n a l).isSome = true := by
  induction l generalizing a with
  | nil => simp at hb
  | cons c rest ih =>
    by_cases hc : fits n c = true
    · simp [allocBlocks, hc]
    · simp only [Bool.not_eq_true] at hc
      rcases List.mem_cons.mp hb with hbc | hbr
      · rw [hbc] at hf; rw [hf] at hc; exact absurd hc (by simp)
      · simp [allocBlocks, hc, Option.isSome_map', ih (a + blockSpan c) hbr]

theorem freeBlocks_append (a : Nat) (A t : List Block) (m : Block) :
    freeBlocks (a + totalSpan A + headerSize) a (A ++ m :: t) =
      A ++ { m with free := true } :: t := by
  induction A generalizing a with
  | nil => simp [freeBlocks, totalSpan]
  | cons b A ih =>
    have hne : ¬ a + headerSize = a + totalSpan (b :: A) + headerSize := by
      have := totalSpan_pos b A
      omega
    have hstep : freeBlocks (a + totalSpan (b :: A) + headerSize) a ((b :: A) ++ m :: t)
        = b :: freeBlocks (a + totalSpan (b :: A) + headerSize) (a + blockSpan b) (A ++ m :: t) := by
      simp [freeBlocks, hne]
    have harith : a + totalSpan (b :: A) + headerSize
        = (a + blockSpan b) + totalSpan A + headerSize := by
      simp [totalSpan]; omega
    rw [hstep, harith, ih (a + blockSpan b)]
    simp

theorem mergeFreeBlocks_cons (b : Block) (rest : List Block) :
    ∃ c t, mergeFreeBlocks (b :: rest) = c :: t ∧ c.free = b.free := by
  simp only [mergeFreeBlocks]
  cases h : mergeFreeBlocks rest with
  | nil => exact ⟨b, [], rfl, rfl⟩
  | cons c t =>
    by_cases hf : (b.free && c.free) = true
    · have hbc : b.free = true ∧ c.free = true := by simpa using hf
      refine ⟨⟨b.size + headerSize + c.size, true⟩, t, by simp [hf], ?_⟩
      simp [hbc.1]
    · exact ⟨b, c :: t, by simp [hf], rfl⟩

theorem noAdjFree_mergeFreeBlocks (l : List Block) :
    noAdjFree (mergeFreeBlocks l) = true := by
  induction l with
  | nil => rfl
  | cons b rest ih =>
    simp only [mergeFreeBlocks]
    cases h : mergeFreeBlocks rest with
    | nil => rfl
    | cons c t =>
      rw [h] at ih
      by_cases hf : (b.free && c.free) = true
      · have hbc : b.free = true ∧ c.free = true := by simpa using hf
        simp only [hf, if_true]
        cases t with
        | nil => rfl
        | cons d t' =>
          simp only [noAdjFree, Bool.and_eq_true, Bool.not_eq_true',
            Bool.and_eq_false_iff] at ih ⊢
          rcases ih with ⟨hcd, ht⟩
          refine ⟨?_, ht⟩
          rcases hcd with hcd | hcd
          · rw [hbc.2] at hcd; exact absurd hcd (by simp)
          · exact Or.inr hcd
      · simp only [hf, if_false]
        simp only [noAdjFree, Bool.and_eq_true, Bool.not_eq_true',
          Bool.and_eq_false_iff]
        have hf' : b.free = false ∨ c.free = false := by
          cases hb : b.free with
          | false => exact Or.inl rfl
          | true =>
            cases hc : c.free with
            | false => exact Or.inr rfl
            | true => exact absurd (by simp [hb, hc]) hf
        exact ⟨hf', by simpa using ih⟩

theorem mergeFreeBlocks_of_noAdjFree (l : List Block) (h : noAdjFree l = true) :
    mergeFreeBlocks l = l := by
  induction l with
  | nil => rfl
  | cons b rest ih =>
    cases rest with
    | nil => rfl
    | cons c t =>
      have hpair : (b.free && c.free) = false := by
        simp only [noAdjFree, Bool.and_eq_true, Bool.not_eq_true'] at h
        exact h.1
      have htail : noAdjFree (c :: t) = true := by
        simp only [noAdjFree, Bool.and_eq_true] at h
        exact h.2
      have hmerge := ih htail
      simp only [mergeFreeBlocks] at hmerge ⊢
      rw [hmerge]
      simp [hpair]

theorem totalSpan_mergeFreeBlocks (l : List Block) :
    totalSpan (mergeFreeBlocks l) = totalSpan l := by
  induction l with
  | nil => rfl
  | cons b rest ih =>
    simp only [mergeFreeBlocks]
    cases h : mergeFreeBlocks rest with
    | nil =>
      rw [h] at ih
      simp only [totalSpan] at ih ⊢
      omega
    | cons c t =>
      rw [h] at ih
      by_cases hf : (b.free && c.free) = true
      · simp only [hf, if_true, totalSpan, blockSpan] at ih ⊢
        omega
      · simp only [hf, if_false, totalSpan] at ih ⊢
        omega

theorem freeSpan_mergeFreeBlocks (l : List Block) :
    freeSpan (mergeFreeBlocks l) = freeSpan l := by
  induction l with
  | nil => rfl
  | cons b rest ih =>
    simp only [mergeFreeBlocks]
    cases h : mergeFreeBlocks rest with
    | nil =>
      rw [h] at ih
      simp only [freeSpan] at ih ⊢
      omega
    | cons c t =>
      rw [h] at ih
      by_cases hf : (b.free && c.free) = true
      · have hbc : b.free = true ∧ c.free = true := by simpa using hf
        simp only [hf, if_true, freeSpan, hbc.1, hbc.2, blockSpan] at ih ⊢
        omega
      · simp only [hf, if_false, freeSpan] at ih ⊢
        omega

theorem totalSpan_splitBlock (n : Nat) (m : Block) :
    totalSpan (splitBlock n m) = blockSpan m := by
  unfold splitBlock
  split_ifs with h
  · simp only [totalSpan, blockSpan, headerSize, minPayload] at h ⊢
    omega
  · simp [totalSpan, blockSpan]

theorem splitBlock_shape (n : Nat) (m : Block) :
    ∃ sz cs, splitBlock n m = ⟨sz, false⟩ :: cs := by
  unfold splitBlock
  split_ifs
  · exact ⟨n, _, rfl⟩
  · exact ⟨m.size, [], rfl⟩

theorem totalSpan_allocBlocks (n a p : Nat) (l l' : List Block)
    (h : allocBlocks n a l = some (p, l')) : totalSpan l' = totalSpan l := by
  obtain ⟨A, m, t, hl, _, _, _, hl'⟩ := allocBlocks_eq_some n a p l l' h
  rw [hl, hl', totalSpan_append, totalSpan_append, totalSpan_append,
    totalSpan_splitBlock]
  simp [totalSpan]
  omega

theorem totalSpan_freeBlocks (p a : Nat) (l : List Block) :
    totalSpan (freeBlocks p a l) = totalSpan l := by
  induction l generalizing a with
  | nil => rfl
  | cons b rest ih =>
    simp only [freeBlocks]
    split_ifs
    · simp [totalSpan, blockSpan]
    · simp only [totalSpan, ih (a + blockSpan b)]

theorem noAdjFree_split_append (n : Nat) (A t : List Block) (m : Block)
    (h : noAdjFree (A ++ m :: t) = true) (hm : fits n m = true) :
    noAdjFree (A ++ splitBlock n m ++ t) = true := by
  induction A with
  | nil =>
    have hm' : m.free = true ∧ n ≤ m.size := by
      unfold fits at hm
      simpa using hm
    simp only [List.nil_append] at h ⊢
    unfold splitBlock
    split_ifs with hsp
    · show noAdjFree (⟨n, false⟩ :: ⟨m.size - n - headerSize, true⟩ :: t) = true
      cases t with
      | nil => rfl
      | cons d t' =>
        simp only [noAdjFree, hm'.1, Bool.true_and, Bool.and_eq_true,
          Bool.not_eq_true'] at h
        simp [noAdjFree, h.1, h.2]
    · show noAdjFree (⟨m.size, false⟩ :: t) = true
      cases t with
      | nil => rfl
      | cons d t' =>
        simp only [noAdjFree, Bool.and_eq_true] at h
        simp [noAdjFree, h.2]
  | cons b A ih =>
    have htail : noAdjFree (A ++ m :: t) = true := by
      have hx : ∃ x xs, A ++ m :: t = x :: xs := by
        cases A with
        | nil => exact ⟨m, t, rfl⟩
        | cons a A' => exact ⟨a, A' ++ m :: t, rfl⟩
      obtain ⟨x, xs, hxs⟩ := hx
      rw [List.cons_append, hxs] at h
      simp only [noAdjFree, Bool.and_eq_true] at h
      rw [hxs]
      exact h.2
    have hih := ih htail
    cases A with
    | nil =>
      obtain ⟨sz, cs, hsplit⟩ := splitBlock_shape n m
      simp only [List.nil_append] at hih
      simp only [List.cons_append, List.nil_append, hsplit] at hih ⊢
      simp [noAdjFree, hih]
    | cons a A' =>
      have hpair : (b.free && a.free) = false := by
        simp only [List.cons_append, noAdjFree, Bool.and_eq_true,
          Bool.not_eq_true'] at h
        exact h.1
      simp only [List.cons_append] at hih ⊢
      simp only [noAdjFree, Bool.and_eq_true, Bool.not_eq_true']
      exact ⟨hpair, hih⟩

theorem kmalloc_init_region (n : Nat) (s : HeapState) :
    (kmalloc_init n s).regionBase = s.regionBase ∧
      (kmalloc_init n s).regionSize = s.regionSize := by
  unfold kmalloc_init
  split_ifs <;> exact ⟨rfl, rfl⟩

theorem kmalloc_next_block_region (n : Nat) (s : HeapState) :
    (kmalloc_next_block n s).2.regionBase = s.regionBase ∧
      (kmalloc_next_block n s).2.regionSize = s.regionSize := by
  unfold kmalloc_next_block
  cases allocBlocks n s.regionBase s.blocks <;> exact ⟨rfl, rfl⟩

theorem kmalloc_region (n : Nat) (s : HeapState) :
    (kmalloc n s).2.regionBase = s.regionBase ∧
      (kmalloc n s).2.regionSize = s.regionSize := by
  unfold kmalloc kmalloc_merge_free_blocks
  by_cases hh : kmalloc_get_head s = none
  · simp only [hh, if_true]
    have h1 := kmalloc_init_region n s
    have h2 := kmalloc_next_block_region n (kmalloc_init n s)
    exact ⟨by rw [h2.1, h1.1], by rw [h2.2, h1.2]⟩
  · simp only [hh, if_false]
    exact kmalloc_next_block_region n s

theorem kfree_region (p : Option Nat) (s : HeapState) :
    (kfree p s).regionBase = s.regionBase ∧ (kfree p s).regionSize = s.regionSize := by
  cases p with
  | none => exact ⟨rfl, rfl⟩
  | some q => exact ⟨rfl, rfl⟩

theorem covered_kmalloc_init (n : Nat) (s : HeapState) (h : covered s) :
    covered (kmalloc_init n s) := by
  unfold kmalloc_init covered
  split_ifs with he hsz
  · right
    simp only [totalSpan, blockSpan, headerSize] at hsz ⊢
    omega
  · exact h
  · exact h

theorem covered_kmalloc_next_block (n : Nat) (s : HeapState) (h : covered s) :
    covered (kmalloc_next_block n s).2 := by
  unfold kmalloc_next_block
  cases halloc : allocBlocks n s.regionBase s.blocks with
  | none => exact h
  | some r =>
    right
    have hspan := totalSpan_allocBlocks n s.regionBase r.1 s.blocks r.2
      (by rw [halloc])
    rcases h with he | hs
    · rw [he] at halloc
      simp [allocBlocks] at halloc
    · simpa [hspan] using hs

theorem covered_kmalloc_merge (s : HeapState) (h : covered s) :
    covered (kmalloc_merge_free_blocks s) := by
  unfold kmalloc_merge_free_blocks covered
  rcases h with he | hs
  · left
    simp [he, mergeFreeBlocks]
  · right
    simpa [totalSpan_mergeFreeBlocks] using hs

theorem covered_kmalloc (n : Nat) (s : HeapState) (h : covered s) :
    covered (kmalloc n s).2 := by
  unfold kmalloc
  apply covered_kmalloc_merge
  apply covered_kmalloc_next_block
  by_cases hh : kmalloc_get_head s = none
  · simp only [hh, if_true]
    exact covered_kmalloc_init n s h
  · simpa only [hh, if_false] using h

theorem covered_kfree (p : Option Nat) (s : HeapState) (h : covered s) :
    covered (kfree p s) := by
  cases p with
  | none => exact h
  | some q =>
    unfold kfree kmalloc_free covered
    rcases h with he | hs
    · left
      simp [he, freeBlocks]
    · right
      simpa [totalSpan_freeBlocks] using hs

theorem covered_run (ops : List Op) (s : HeapState) (h : covered s) :
    covered (run ops s) ∧ (run ops s).regionBase = s.regionBase ∧
      (run ops s).regionSize = s.regionSize := by
  induction ops generalizing s with
  | nil => exact ⟨h, rfl, rfl⟩
  | cons op ops ih =>
    have hstep : covered (stepOp s op) ∧ (stepOp s op).regionBase = s.regionBase ∧
        (stepOp s op).regionSize = s.regionSize := by
      cases op with
      | alloc n => exact ⟨covered_kmalloc n s h, kmalloc_region n s⟩
      | rel p => exact ⟨covered_kfree p s h, kfree_region p s⟩
    have := ih (stepOp s op) hstep.1
    refine ⟨this.1, ?_, ?_⟩
    · rw [show run (op :: ops) s = run ops (stepOp s op) from rfl, this.2.1, hstep.2.1]
    · rw [show run (op :: ops) s = run ops (stepOp s op) from rfl, this.2.2, hstep.2.2]

/-- C9: release of a null pointer is a silent no-op: for every state, kfree
applied to the null sentinel returns without reporting an error and without
any change to the allocator state, exactly as the visible source returns
before reaching kmalloc_free. -/
theorem kfree_null_noop (s : HeapState) : kfree none s = s := rfl

/-- C2: after every kmalloc call returns, whether the search succeeded or
failed, the chain contains no two consecutive free blocks: the coalescing
pass invoked unconditionally inside kmalloc reaches its fixed point before
kmalloc returns. -/
theorem kmalloc_no_adjacent_free (n : Nat) (s : HeapState) :
    noAdjFree (kmalloc n s).2.blocks = true := by
  unfold kmalloc kmalloc_merge_free_blocks
  exact noAdjFree_mergeFreeBlocks _

/-- C10: kmalloc validates nothing about the requested size at entry: the
call is literally the composition that passes the request - zero included -
unchanged to the lazy initialization and to the block search (first
conjunct), and a zero-byte request is never rejected: whenever the chain
holds any free block, kmalloc 0 returns a pointer rather than an error
(second conjunct). -/
theorem kmalloc_zero_unvalidated (s : HeapState) :
    kmalloc 0 s =
      ((kmalloc_next_block 0
          (if kmalloc_get_head s = none then kmalloc_init 0 s else s)).1,
       kmalloc_merge_free_blocks
         (kmalloc_next_block 0
           (if kmalloc_get_head s = none then kmalloc_init 0 s else s)).2) ∧
    ((∃ b ∈ s.blocks, b.free = true) → ((kmalloc 0 s).1).isSome = true) := by
  refine ⟨rfl, ?_⟩
  rintro ⟨b, hb, hbf⟩
  have hne : s.blocks ≠ [] := by
    intro hc
    rw [hc] at hb
    simp at hb
  have hh : ¬ kmalloc_get_head s = none := by
    simp [kmalloc_get_head, List.head?_eq_none_iff, hne]
  have hfit : fits 0 b = true := by simp [fits, hbf]
  have hsome := allocBlocks_isSome 0 s.regionBase s.blocks b hb hfit
  unfold kmalloc
  simp only [hh, if_false]
  unfold kmalloc_next_block
  cases halloc : allocBlocks 0 s.regionBase s.blocks with
  | none => rw [halloc] at hsome; simp at hsome
  | some r => rfl

theorem kmalloc_zero_unvalidated_witness :
    ((kmalloc 0 ⟨0, 1024, [⟨100, true⟩]⟩).1).isSome = true :=
  (kmalloc_zero_unvalidated ⟨0, 1024, [⟨100, true⟩]⟩).2 ⟨⟨100, true⟩, by simp, rfl⟩

/-- C8: lazy initialization uses the externally supplied region descriptor:
when no head block exists, kmalloc_init is independent of the allocation
request (first conjunct: any two requests initialize identically), it
establishes one free block spanning the externally supplied (base, size)
region (second conjunct), and the first kmalloc call routes through this
initialization before the search runs (third conjunct). -/
theorem kmalloc_init_uses_region (n m : Nat) (s : HeapState)
    (hempty : s.blocks = []) (hsz : headerSize < s.regionSize) :
    kmalloc_init n s = kmalloc_init m s ∧
    kmalloc_init n s = { s with blocks := [⟨s.regionSize - headerSize, true⟩] } ∧
    kmalloc n s =
      ((kmalloc_next_block n (kmalloc_init n s)).1,
       kmalloc_merge_free_blocks (kmalloc_next_block n (kmalloc_init n s)).2) := by
  have hh : kmalloc_get_head s = none := by
    simp [kmalloc_get_head, hempty]
  refine ⟨rfl, ?_, ?_⟩
  · unfold kmalloc_init
    simp [hempty, hsz]
  · unfold kmalloc
    simp only [hh, if_true]

theorem kmalloc_init_uses_region_witness :
    kmalloc_init 7 ⟨4096, 1024, []⟩ = kmalloc_init 99 ⟨4096, 1024, []⟩ ∧
    kmalloc_init 7 ⟨4096, 1024, []⟩ =
      { (⟨4096, 1024, []⟩ : HeapState) with
        blocks := [⟨(⟨4096, 1024, []⟩ : HeapState).regionSize - headerSize, true⟩] } ∧
    kmalloc 7 ⟨4096, 1024, []⟩ =
      ((kmalloc_next_block 7 (kmalloc_init 7 ⟨4096, 1024, []⟩)).1,
       kmalloc_merge_free_blocks
         (kmalloc_next_block 7 (kmalloc_init 7 ⟨4096, 1024, []⟩)).2) :=
  kmalloc_init_uses_region 7 99 ⟨4096, 1024, []⟩ rfl (by decide)

/-- C1: first-fit allocation: whenever the chain splits as A, then m, then
t, where no block of A is both free and large enough for the request n and
m is, kmalloc returns the payload address of m - the first fitting free
block in address order from the head is selected and the search never
continues past it. -/
theorem kmalloc_first_fit (n : Nat) (s : HeapState) (A t : List Block)
    (m : Block) (hb : s.blocks = A ++ m :: t)
    (hA : ∀ b ∈ A, fits n b = false) (hm : fits n m = true) :
    (kmalloc n s).1 = some (s.regionBase + totalSpan A + headerSize) := by
  have hne : s.blocks ≠ [] := by
    rw [hb]
    intro hc
    exact absurd (List.append_eq_nil.mp hc).2 (by simp)
  have hh : ¬ kmalloc_get_head s = none := by
    simp [kmalloc_get_head, List.head?_eq_none_iff, hne]
  unfold kmalloc
  simp only [hh, if_false]
  unfold kmalloc_next_block
  rw [hb, allocBlocks_append n s.regionBase A t m hA hm]

theorem kmalloc_first_fit_witness :
    (kmalloc 50 ⟨0, 1024, [⟨30, false⟩, ⟨40, true⟩, ⟨100, true⟩, ⟨100, false⟩]⟩).1 =
      some ((⟨0, 1024, [⟨30, false⟩, ⟨40, true⟩, ⟨100, true⟩, ⟨100, false⟩]⟩ :
          HeapState).regionBase +
        totalSpan [⟨30, false⟩, ⟨40, true⟩] + headerSize) :=
  kmalloc_first_fit 50 ⟨0, 1024, [⟨30, false⟩, ⟨40, true⟩, ⟨100, true⟩, ⟨100, false⟩]⟩
    [⟨30, false⟩, ⟨40, true⟩] [⟨100, false⟩] ⟨100, true⟩ rfl (by decide) (by decide)

/-- C5: split correctness: serving n bytes from the first-fitting free
block, of payload n + k, replaces it by exactly two blocks when the excess
k is more than one header's worth plus the minimum useful payload: an
in-use block of payload exactly n immediately followed by a free block of
payload k minus one header's worth; when k is at or below that threshold
the caller receives the whole block unshrunk, merely marked in-use. -/
theorem kmalloc_split_correct (n k : Nat) (s : HeapState) (A t : List Block)
    (hb : s.blocks = A ++ ⟨n + k, true⟩ :: t)
    (hA : ∀ b ∈ A, fits n b = false) :
    (headerSize + minPayload < k →
      kmalloc_next_block n s =
        (some (s.regionBase + totalSpan A + headerSize),
         { s with blocks := A ++ ⟨n, false⟩ :: ⟨k - headerSize, true⟩ :: t })) ∧
    (k ≤ headerSize + minPayload →
      kmalloc_next_block n s =
        (some (s.regionBase + totalSpan A + headerSize),
         { s with blocks := A ++ ⟨n + k, false⟩ :: t })) := by
  have hm : fits n (⟨n + k, true⟩ : Block) = true := by
    simp [fits]
  have key := allocBlocks_append n s.regionBase A t ⟨n + k, true⟩ hA hm
  constructor
  · intro hk
    have hsplit : splitBlock n ⟨n + k, true⟩ = [⟨n, false⟩, ⟨k - headerSize, true⟩] := by
      show (if n + headerSize + minPayload < n + k then
          [⟨n, false⟩, ⟨n + k - n - headerSize, true⟩]
        else [⟨n + k, false⟩] : List Block) = _
      rw [if_pos (by omega)]
      have harith : n + k - n - headerSize = k - headerSize := by omega
      rw [harith]
    rw [hsplit] at key
    unfold kmalloc_next_block
    rw [hb, key]
    simp [List.append_assoc]
  · intro hk
    have hsplit : splitBlock n ⟨n + k, true⟩ = [⟨n + k, false⟩] := by
      show (if n + headerSize + minPayload < n + k then
          [⟨n, false⟩, ⟨n + k - n - headerSize, true⟩]
        else [⟨n + k, false⟩] : List Block) = _
      rw [if_neg (by omega)]
    rw [hsplit] at key
    unfold kmalloc_next_block
    rw [hb, key]
    simp [List.append_assoc]

theorem kmalloc_split_correct_witness :
    headerSize + minPayload < 100 ∧
    kmalloc_next_block 100 ⟨0, 2048, [⟨10, false⟩, ⟨200, true⟩]⟩ =
      (some ((⟨0, 2048, [⟨10, false⟩, ⟨200, true⟩]⟩ : HeapState).regionBase +
          totalSpan [⟨10, false⟩] + headerSize),
       { (⟨0, 2048, [⟨10, false⟩, ⟨200, true⟩]⟩ : HeapState) with
         blocks := [⟨10, false⟩] ++ ⟨100, false⟩ :: ⟨100 - headerSize, true⟩ :: [] }) :=
  ⟨by decide,
   (kmalloc_split_correct 100 100 ⟨0, 2048, [⟨10, false⟩, ⟨200, true⟩]⟩
      [⟨10, false⟩] [] rfl (by decide)).1 (by decide)⟩

/-- C6: release changes nothing except the owning block's flag: for the
payload address of block m (the pointer kmalloc returns for it), kfree
marks exactly that block free and leaves every other block's size, flag
and position - and the chain structure - untouched; in particular no
coalescing happens at release time. -/
theorem kfree_marks_only (s : HeapState) (A t : List Block) (m : Block)
    (hb : s.blocks = A ++ m :: t) :
    kfree (some (s.regionBase + totalSpan A + headerSize)) s =
      { s with blocks := A ++ { m with free := true } :: t } := by
  show kmalloc_free _ s = _
  unfold kmalloc_free
  rw [hb, freeBlocks_append s.regionBase A t m]

theorem kfree_marks_only_witness :
    kfree (some ((⟨0, 1024, [⟨100, false⟩, ⟨50, false⟩, ⟨826, true⟩]⟩ :
        HeapState).regionBase + totalSpan [⟨100, false⟩] + headerSize))
      ⟨0, 1024, [⟨100, false⟩, ⟨50, false⟩, ⟨826, true⟩]⟩ =
      { (⟨0, 1024, [⟨100, false⟩, ⟨50, false⟩, ⟨826, true⟩]⟩ : HeapState) with
        blocks := [⟨100, false⟩] ++
          { (⟨50, false⟩ : Block) with free := true } :: [⟨826, true⟩] } :=
  kfree_marks_only ⟨0, 1024, [⟨100, false⟩, ⟨50, false⟩, ⟨826, true⟩]⟩
    [⟨100, false⟩] [⟨826, true⟩] ⟨50, false⟩ rfl

/-- C4 counterexample: a state (reachable by allocating twice, freeing
both, then over-asking) in which no free block fits the request of 1000
bytes: kmalloc reports OutOfMemory (none) as the claim says, yet the state
is NOT left unchanged - the coalescing pass runs unconditionally after the
failed search and merges the adjacent free blocks. -/
theorem kmalloc_oom_state_change :
    (∀ b ∈ ([⟨100, true⟩, ⟨100, true⟩, ⟨776, true⟩] : List Block),
        b.free = true → b.size < 1000) ∧
    (kmalloc 1000 ⟨0, 1024, [⟨100, true⟩, ⟨100, true⟩, ⟨776, true⟩]⟩).1 = none ∧
    (kmalloc 1000 ⟨0, 1024, [⟨100, true⟩, ⟨100, true⟩, ⟨776, true⟩]⟩).2 ≠
      ⟨0, 1024, [⟨100, true⟩, ⟨100, true⟩, ⟨776, true⟩]⟩ := by
  decide

/-- C4 amended: when the chain is initialized and no free block has a
payload large enough, kmalloc fails with OutOfMemory (returns the null
pointer) and the only state change is the unconditional coalescing pass
over the chain: the region and every block are otherwise untouched, and no
block is handed out. -/
theorem kmalloc_oom_coalesce_only (n : Nat) (s : HeapState)
    (hne : s.blocks ≠ []) (hnofit : ∀ b ∈ s.blocks, fits n b = false) :
    kmalloc n s = (none, { s with blocks := mergeFreeBlocks s.blocks }) := by
  have hh : ¬ kmalloc_get_head s = none := by
    simp [kmalloc_get_head, List.head?_eq_none_iff, hne]
  have hnone : allocBlocks n s.regionBase s.blocks = none :=
    (allocBlocks_eq_none_iff n s.regionBase s.blocks).mpr hnofit
  unfold kmalloc kmalloc_next_block kmalloc_merge_free_blocks
  simp only [hh, if_false]
  rw [hnone]

theorem kmalloc_oom_coalesce_only_witness :
    kmalloc 500 ⟨0, 128, [⟨20, true⟩, ⟨76, true⟩]⟩ =
      (none, { (⟨0, 128, [⟨20, true⟩, ⟨76, true⟩]⟩ : HeapState) with
               blocks := mergeFreeBlocks [⟨20, true⟩, ⟨76, true⟩] }) :=
  kmalloc_oom_coalesce_only 500 ⟨0, 128, [⟨20, true⟩, ⟨76, true⟩]⟩
    (by decide) (by decide)

theorem totalSpan_take_succ (l : List Block) (i : Nat) (hi : i < l.length) :
    totalSpan (l.take (i + 1)) =
      totalSpan (l.take i) + blockSpan (l.getD i ⟨0, false⟩) := by
  induction l generalizing i with
  | nil => simp at hi
  | cons b rest ih =>
    cases i with
    | zero =>
      simp [totalSpan]
    | succ j =>
      have hj : j < rest.length := by simpa using hi
      simp only [List.take_succ_cons, totalSpan, List.getD_cons_succ, ih j hj]
      omega

/-- C3: chain coverage invariant: in every state reachable by any sequence
of allocate and release calls from the uninitialized state, the block
chain tiles the region with no gaps and no overlaps: the address
immediately after block i's payload equals the header address of block
i+1, and, for the last block, the end of the region (base plus size). -/
theorem heap_chain_coverage (base sz : Nat) (ops : List Op) (i : Nat)
    (hi : i < (run ops ⟨base, sz, []⟩).blocks.length) :
    blockAddr (run ops ⟨base, sz, []⟩) i + headerSize +
        ((run ops ⟨base, sz, []⟩).blocks.getD i ⟨0, false⟩).size =
      if i + 1 < (run ops ⟨base, sz, []⟩).blocks.length
      then blockAddr (run ops ⟨base, sz, []⟩) (i + 1)
      else base + sz := by
  have hrun := covered_run ops ⟨base, sz, []⟩ (Or.inl rfl)
  set s := run ops ⟨base, sz, []⟩ with hs
  have hsucc := totalSpan_take_succ s.blocks i hi
  unfold blockSpan at hsucc
  unfold blockAddr
  split_ifs with h1
  · omega
  · have hlen : i + 1 = s.blocks.length := by omega
    have hne : s.blocks ≠ [] := by
      intro hc
      rw [hc] at hi
      simp at hi
    have hcov : totalSpan s.blocks = s.regionSize := by
      rcases hrun.1 with hc | hc
      · exact absurd hc hne
      · exact hc
    have htake : totalSpan (s.blocks.take (i + 1)) = totalSpan s.blocks := by
      rw [hlen, List.take_length]
    have e1 : s.regionBase = base := hrun.2.1
    have e2 : s.regionSize = sz := hrun.2.2
    omega

theorem heap_chain_coverage_witness :
    0 < (run [Op.alloc 100, Op.rel (some 16), Op.alloc 50] ⟨0, 1024, []⟩).blocks.length ∧
    (blockAddr (run [Op.alloc 100, Op.rel (some 16), Op.alloc 50] ⟨0, 1024, []⟩) 0 +
        headerSize +
        ((run [Op.alloc 100, Op.rel (some 16), Op.alloc 50]
            ⟨0, 1024, []⟩).blocks.getD 0 ⟨0, false⟩).size =
      if 0 + 1 < (run [Op.alloc 100, Op.rel (some 16), Op.alloc 50]
          ⟨0, 1024, []⟩).blocks.length
      then blockAddr (run [Op.alloc 100, Op.rel (some 16), Op.alloc 50]
          ⟨0, 1024, []⟩) (0 + 1)
      else 0 + 1024) :=
  ⟨by decide,
   heap_chain_coverage 0 1024 [Op.alloc 100, Op.rel (some 16), Op.alloc 50] 0 (by decide)⟩

theorem kmalloc_ne_nil (n : Nat) (s : HeapState) (hne : s.blocks ≠ []) :
    kmalloc n s = ((kmalloc_next_block n s).1,
      kmalloc_merge_free_blocks (kmalloc_next_block n s).2) := by
  have hh : ¬ kmalloc_get_head s = none := by
    simp [kmalloc_get_head, List.head?_eq_none_iff, hne]
  unfold kmalloc
  simp only [hh, if_false]

theorem kmalloc_next_block_of_alloc (n : Nat) (s : HeapState) (p : Nat)
    (bs : List Block) (h : allocBlocks n s.regionBase s.blocks = some (p, bs)) :
    kmalloc_next_block n s = (some p, { s with blocks := bs }) := by
  unfold kmalloc_next_block
  rw [h]

/-- C7 counterexample: one allocation from a fresh 1024-byte region
followed by its release: the repeated allocation does return the same
pointer, but the total free capacity of the chain is NOT unchanged by the
allocate/release pair - the split consumed one header's worth of payload
(1008 before, 992 after), which is only recovered by the next coalescing
pass. -/
theorem roundtrip_capacity_changes :
    (kmalloc 100 ⟨0, 1024, [⟨1008, true⟩]⟩).1 = some 16 ∧
    (kmalloc 100 (kfree (some 16) (kmalloc 100 ⟨0, 1024, [⟨1008, true⟩]⟩).2)).1 =
      some 16 ∧
    freeCapacity (kfree (some 16) (kmalloc 100 ⟨0, 1024, [⟨1008, true⟩]⟩).2).blocks ≠
      freeCapacity [⟨1008, true⟩] := by
  decide

/-- C7 amended: round-trip from any initialized state with no adjacent
free pair (as every state left behind by an allocate call is): if
allocate(n) succeeds with pointer p, then after release(p) an immediate
allocate(n) returns exactly the same pointer p, and the total free span of
the chain - counting each free block's header together with its payload -
is unchanged by the allocate/release pair; the free payload capacity alone
can shrink by one header's worth when the first allocate splits, the
header being recovered at the next coalescing pass. -/
theorem kmalloc_roundtrip (n : Nat) (s0 : HeapState) (p : Nat)
    (hadj : noAdjFree s0.blocks = true) (hne : s0.blocks ≠ [])
    (hp : (kmalloc n s0).1 = some p) :
    (kmalloc n (kfree (some p) (kmalloc n s0).2)).1 = some p ∧
    freeSpan (kfree (some p) (kmalloc n s0).2).blocks = freeSpan s0.blocks := by
  rw [kmalloc_ne_nil n s0 hne] at hp
  cases halloc : allocBlocks n s0.regionBase s0.blocks with
  | none =>
    unfold kmalloc_next_block at hp
    rw [halloc] at hp
    simp at hp
  | some r =>
    obtain ⟨p0, bs1⟩ := r
    have hnext := kmalloc_next_block_of_alloc n s0 p0 bs1 halloc
    rw [hnext] at hp
    simp only at hp
    have hp0 : p0 = p := by simpa using hp
    subst hp0
    obtain ⟨A, m, t, hl, hA, hm, hpv, hbs1⟩ :=
      allocBlocks_eq_some n s0.regionBase p0 s0.blocks bs1 halloc
    have hadj1 : noAdjFree bs1 = true := by
      rw [hbs1]
      exact noAdjFree_split_append n A t m (hl ▸ hadj) hm
    have hbs1merge : mergeFreeBlocks bs1 = bs1 :=
      mergeFreeBlocks_of_noAdjFree bs1 hadj1
    have hs1 : (kmalloc n s0).2 = { s0 with blocks := bs1 } := by
      rw [kmalloc_ne_nil n s0 hne]
      show kmalloc_merge_free_blocks (kmalloc_next_block n s0).2 = _
      rw [hnext]
      unfold kmalloc_merge_free_blocks
      simp [hbs1merge]
    obtain ⟨msz, mfree⟩ := m
    have hm' : mfree = true ∧ n ≤ msz := by
      unfold fits at hm
      simpa using hm
    by_cases hksp : n + headerSize + minPayload < msz
    · have hsplit : splitBlock n ⟨msz, mfree⟩ =
          [⟨n, false⟩, ⟨msz - n - headerSize, true⟩] := by
        show (if n + headerSize + minPayload < msz then
            ([⟨n, false⟩, ⟨msz - n - headerSize, true⟩] : List Block)
          else [⟨msz, false⟩]) = _
        rw [if_pos hksp]
      have hbs1' : bs1 = A ++ ⟨n, false⟩ :: ⟨msz - n - headerSize, true⟩ :: t := by
        rw [hbs1, hsplit]
        simp
      have hs2 : kfree (some p0) (kmalloc n s0).2 =
          { s0 with blocks := A ++ ⟨n, true⟩ :: ⟨msz - n - headerSize, true⟩ :: t } := by
        rw [hs1]
        show kmalloc_free p0 _ = _
        unfold kmalloc_free
        dsimp only
        rw [hbs1', hpv,
          freeBlocks_append s0.regionBase A (⟨msz - n - headerSize, true⟩ :: t) ⟨n, false⟩]
      rw [hs2]
      have hne2 : (A ++ ⟨n, true⟩ :: ⟨msz - n - headerSize, true⟩ :: t) ≠
          ([] : List Block) := by
        intro hc
        exact absurd (List.append_eq_nil.mp hc).2 (by simp)
      constructor
      · rw [kmalloc_ne_nil n _ hne2]
        have halloc2 := allocBlocks_append n s0.regionBase A
          (⟨msz - n - headerSize, true⟩ :: t) ⟨n, true⟩ hA (by simp [fits])
        unfold kmalloc_next_block
        dsimp only
        rw [halloc2, hpv]
      · dsimp only
        rw [hl]
        rw [freeSpan_append, freeSpan_append]
        simp only [headerSize, minPayload] at hksp
        simp only [freeSpan, blockSpan, hm'.1, if_true, headerSize]
        omega
    · have hsplit : splitBlock n ⟨msz, mfree⟩ = [⟨msz, false⟩] := by
        show (if n + headerSize + minPayload < msz then
            ([⟨n, false⟩, ⟨msz - n - headerSize, true⟩] : List Block)
          else [⟨msz, false⟩]) = _
        rw [if_neg hksp]
      have hbs1' : bs1 = A ++ ⟨msz, false⟩ :: t := by
        rw [hbs1, hsplit]
        simp
      have hs2 : kfree (some p0) (kmalloc n s0).2 =
          { s0 with blocks := A ++ ⟨msz, true⟩ :: t } := by
        rw [hs1]
        show kmalloc_free p0 _ = _
        unfold kmalloc_free
        dsimp only
        rw [hbs1', hpv, freeBlocks_append s0.regionBase A t ⟨msz, false⟩]
      rw [hs2]
      have hne2 : (A ++ ⟨msz, true⟩ :: t) ≠ ([] : List Block) := by
        intro hc
        exact absurd (List.append_eq_nil.mp hc).2 (by simp)
      constructor
      · rw [kmalloc_ne_nil n _ hne2]
        have halloc2 := allocBlocks_append n s0.regionBase A t ⟨msz, true⟩ hA
          (by simp [fits, hm'.2])
        unfold kmalloc_next_block
        dsimp only
        rw [halloc2, hpv]
      · dsimp only
        rw [hl]
        rw [freeSpan_append, freeSpan_append]
        simp only [freeSpan, blockSpan, hm'.1, if_true]

theorem kmalloc_roundtrip_witness :
    (kmalloc 100 (kfree (some 16) (kmalloc 100 ⟨0, 1024, [⟨1008, true⟩]⟩).2)).1 =
      some 16 ∧
    freeSpan (kfree (some 16) (kmalloc 100 ⟨0, 1024, [⟨1008, true⟩]⟩).2).blocks =
      freeSpan [⟨1008, true⟩] :=
  kmalloc_roundtrip 100 ⟨0, 1024, [⟨1008, true⟩]⟩ 16 (by decide) (by decide) (by decide)
